import Mathlib

/-!
# Verification of the slam-calculator score engine

Shallow embedding of the score computation and validation engine of the
slam-calculator web app (`app.js`).  JavaScript strings are modelled as
`List Char`; JavaScript numbers are modelled as `ℚ` (every value handled by
the engine is a decimal fraction, and the claims under study concern exact
structural behaviour, not IEEE rounding).

Sections:
* character-list primitives mirroring the JS string methods used by the code
  (`match(/c/g).length`, `indexOf`-based first-occurrence keeping,
  `replace(/c/g,'')`, `replace(c,d)`, `lastIndexOf`, `split`, `trim`);
* a model of the JS `parseFloat` builtin (prefix parsing);
* the engine: `normalizeSeparators` / `limitDecimalPlaces` (app.js 773-825),
  `validateInput` (app.js 827-882), `getScores` (app.js 919-973),
  `calculateScore` (app.js 975-1020), `saveAndReset`/`saveHistory`
  (app.js 1072-1160).
-/

namespace Slam

/-- Number of occurrences of `c` in `s`; JS `(s.match(/c/g) || []).length`. -/
def countChar (c : Char) : List Char → Nat
  | [] => 0
  | x :: xs => (if x = c then 1 else 0) + countChar c xs

/-- Delete every occurrence of `c`; JS `s.replace(/c/g, '')`. -/
def removeAll (c : Char) : List Char → List Char
  | [] => []
  | x :: xs => if x = c then removeAll c xs else x :: removeAll c xs

/-- Keep the first occurrence of `c` and delete all later ones; JS
`s.substring(0, i + 1) + s.substring(i + 1).replace(/c/g, '')` with
`i = s.indexOf(c)` (the identity when `c` is absent, since `i = -1`). -/
def keepFirst (c : Char) : List Char → List Char
  | [] => []
  | x :: xs => if x = c then x :: removeAll c xs else x :: keepFirst c xs

/-- Replace the first occurrence of `c` by `d`; JS `s.replace(c, d)`. -/
def replaceFirst (c d : Char) : List Char → List Char
  | [] => []
  | x :: xs => if x = c then d :: xs else x :: replaceFirst c d xs

/-- Index of the last occurrence of `c`, `-1` when absent; JS `s.lastIndexOf(c)`. -/
def lastIndexOf (c : Char) : List Char → Int
  | [] => -1
  | x :: xs =>
    let r := lastIndexOf c xs
    if 0 ≤ r then r + 1 else if x = c then 0 else -1

/-- Split at every occurrence of `c`; JS `s.split(c)`. -/
def splitOnChar (c : Char) : List Char → List (List Char)
  | [] => [[]]
  | x :: xs =>
    if x = c then [] :: splitOnChar c xs
    else
      match splitOnChar c xs with
      | [] => [[x]]
      | y :: ys => (x :: y) :: ys

/-- JS whitespace characters relevant to `trim` / `parseFloat`. -/
def isWsChar (c : Char) : Bool :=
  c = ' ' || c = '\t' || c = '\n' || c = '\r'

/-- JS `s.trim()`: strip whitespace from both ends. -/
def trimWs (s : List Char) : List Char :=
  ((s.dropWhile isWsChar).reverse.dropWhile isWsChar).reverse

/-- Numeric value of a decimal digit character. -/
def digitVal (c : Char) : Nat := c.toNat - 48

/-- Value of a list of decimal digit characters, most significant first. -/
def digitsToNat (l : List Char) : Nat :=
  l.foldl (fun acc c => 10 * acc + digitVal c) 0

/-- Unsigned part of the JS `parseFloat` builtin: longest prefix of the form
`digits [ '.' digits ]`; `none` models `NaN` (no digit consumed). -/
def jsParseFloatUnsigned (s : List Char) : Option ℚ :=
  let intDigits := s.takeWhile Char.isDigit
  let rest := s.dropWhile Char.isDigit
  match rest with
  | '.' :: rest2 =>
    let fracDigits := rest2.takeWhile Char.isDigit
    if intDigits = [] ∧ fracDigits = [] then none
    else some ((digitsToNat intDigits : ℚ) +
      (digitsToNat fracDigits : ℚ) / (10 : ℚ) ^ fracDigits.length)
  | _ => if intDigits = [] then none else some (digitsToNat intDigits)

/-- Model of the JS `parseFloat` builtin on the fragment exercised here:
skip leading whitespace, optional sign, then the longest numeric prefix
(digits with at most one decimal point); `none` models `NaN`.  Exponent
notation and `Infinity` are not modelled (no claim depends on them). -/
def jsParseFloat (s : List Char) : Option ℚ :=
  let t := s.dropWhile isWsChar
  match t with
  | '+' :: rest => jsParseFloatUnsigned rest
  | '-' :: rest => (jsParseFloatUnsigned rest).map (fun v => -v)
  | _ => jsParseFloatUnsigned t

/-- Separator-normalization phase of `limitDecimalPlaces` (app.js 773-811):
reduce each duplicated separator kind to its first occurrence, then, when
both kinds occur, keep the kind standing last in the *reduced* text as the
decimal point (converting a kept comma to a period) and delete every
occurrence of the other kind; finally convert a lone comma to a period. -/
def normalizeSeparators (value : List Char) : List Char :=
  let commaCount := countChar ',' value
  let dotCount := countChar '.' value
  let value :=
    if commaCount > 1 ∨ dotCount > 1 ∨ (commaCount > 0 ∧ dotCount > 0) then
      -- If multiple separators of same type, keep only the first one
      let value := if commaCount > 1 then keepFirst ',' value else value
      let value := if dotCount > 1 then keepFirst '.' value else value
      -- If both comma and dot are present, keep the last one
      if commaCount > 0 ∧ dotCount > 0 then
        if lastIndexOf ',' value > lastIndexOf '.' value then
          replaceFirst ',' '.' (removeAll '.' value)
        else
          removeAll ',' value
      else value
    else value
  -- Convert comma to dot for consistency
  if 0 < countChar ',' value then replaceFirst ',' '.' value else value

/-- `limitDecimalPlaces` (app.js 773-825): separator normalization followed by
truncation of the fractional part to one digit (`parts[1].substring(0, 1)`). -/
def limitDecimalPlaces (value : List Char) : List Char :=
  let value := normalizeSeparators value
  if 0 < countChar '.' value then
    match splitOnChar '.' value with
    | p0 :: p1 :: _ => if p1.length > 1 then p0 ++ '.' :: p1.take 1 else value
    | _ => value
  else value

/-- Outcome of `validateInput` (app.js 827-882).  The code returns a boolean
and writes a per-field feedback text; each failing branch writes a distinct
text, modelled as a distinct constructor: `empty` (no feedback, field merely
not valid), `tooManyFractionDigits` ("Maximal eine Nachkommastelle"),
`multipleSeparators` ("Nur ein Dezimaltrennzeichen erlaubt") and
`outOfRange` ("1,0 - 10,0"). -/
inductive VResult where
  | ok (value : ℚ)
  | empty
  | tooManyFractionDigits
  | multipleSeparators
  | outOfRange
deriving DecidableEq

/-- `true` iff validation succeeded (the JS function returned `true`). -/
def VResult.isOk : VResult → Bool
  | .ok _ => true
  | _ => false

/-- The light normalization `validateInput` parses (app.js 838-841): only
the first comma is replaced by a period. -/
def normalizedForValidation (value : List Char) : List Char :=
  if countChar ',' value > 0 then replaceFirst ',' '.' value else value

/-- JS `s.includes('.') && s.split('.')[1].length > 1` (app.js 850): more
than one character between the first and the second period. -/
def fracPartTooLong (s : List Char) : Bool :=
  match splitOnChar '.' s with
  | _ :: p1 :: _ => decide (1 < p1.length)
  | _ => false

/-- `validateInput` (app.js 827-882), applied to the field's raw text.
Branch order follows the code: empty check, fraction-digit check on the
text with its first comma replaced by a period, multiple-separator check
on the raw counts, then `parseFloat` range check. -/
def validateInput (value : List Char) : VResult :=
  let commaCount := countChar ',' value
  let dotCount := countChar '.' value
  -- Normalize for validation (convert comma to dot for parsing)
  let normalizedValue := normalizedForValidation value
  if value = [] then .empty
  else if 0 < countChar '.' normalizedValue ∧ fracPartTooLong normalizedValue then
    .tooManyFractionDigits
  else if commaCount > 1 ∨ dotCount > 1 ∨ (commaCount > 0 ∧ dotCount > 0) then
    .multipleSeparators
  else
    match jsParseFloat normalizedValue with
    | none => .outOfRange
    | some numValue =>
      if numValue < 1 ∨ numValue > 10 then .outOfRange else .ok numValue

/-- In the app, leaving a field first rewrites it with `limitDecimalPlaces`
(blur listener, app.js 175-183) and validation then judges the rewritten
text (input listener / `getScores`).  Composite used by the scenarios. -/
def validateOnBlur (value : List Char) : VResult :=
  validateInput (limitDecimalPlaces value)

/-- Separator normalization as inlined in `getScores` (app.js 933-966): the
duplicate reduction sits under its own guard, the cross-kind resolution under
another, and a lone comma is converted in the trailing `else if`.  Proved
below to coincide with `normalizeSeparators`. -/
def normalizeScoreText (value : List Char) : List Char :=
  let commaCount := countChar ',' value
  let dotCount := countChar '.' value
  let value :=
    if commaCount > 1 ∨ dotCount > 1 then
      let value := if commaCount > 1 then keepFirst ',' value else value
      if dotCount > 1 then keepFirst '.' value else value
    else value
  if commaCount > 0 ∧ dotCount > 0 then
    if lastIndexOf ',' value > lastIndexOf '.' value then
      replaceFirst ',' '.' (removeAll '.' value)
    else
      removeAll ',' value
  else if commaCount > 0 then replaceFirst ',' '.' value
  else value

/-- `getScores` (app.js 919-973): walk the judge fields; return `none`
("null") as soon as a field is blank after trimming or fails `validateInput`
(which judges the untrimmed text); otherwise normalize the trimmed text and
parse it.  `getD 0` stands for the `parseFloat` result, which cannot be `NaN`
once `validateInput` has succeeded. -/
def getScores : List (List Char) → Option (List ℚ)
  | [] => some []
  | input :: rest =>
    let value := trimWs input
    if value = [] then none
    else if (validateInput input).isOk = false then none
    else
      let numValue := (jsParseFloat (normalizeScoreText value)).getD 0
      (getScores rest).map (fun scores => numValue :: scores)

/-- The current result built by `calculateScore` (app.js 1001-1007).
`participantName` is read from a separate DOM field and plays no part in the
claims, so it is not modelled here. -/
structure CalcResult where
  scores : List ℚ
  excludedScores : List ℚ
  includedScores : List ℚ
  totalScore : ℚ
deriving DecidableEq

/-- JS `[...scores].sort((a, b) => a - b)`: the ascending rearrangement.  For
a total order the sorted list of values is unique, so any sorting algorithm
is an exact model. -/
def sortScores (scores : List ℚ) : List ℚ :=
  List.insertionSort (· ≤ ·) scores

/-- Core of `calculateScore` (app.js 988-1007): sort ascending, exclude the
first and last element of the sorted array (`sortedScores[0]` and
`sortedScores[sortedScores.length - 1]`, modelled with `getD` — out-of-range
indexing is unreachable for the 3..15 judge panels the app constructs), keep
`slice(1, -1)`, and sum it left to right with `reduce((sum, s) => sum + s, 0)`. -/
def calculateScore (scores : List ℚ) : CalcResult :=
  let sortedScores := sortScores scores
  let excludedScores := [sortedScores.getD 0 0,
    sortedScores.getD (sortedScores.length - 1) 0]
  let includedScores := (sortedScores.drop 1).dropLast
  let totalScore := includedScores.foldl (fun sum score => sum + score) 0
  { scores := scores, excludedScores := excludedScores,
    includedScores := includedScores, totalScore := totalScore }

/-- A committed history entry (app.js 1079-1087).  `id` is `Date.now()` and
`timestamp` a locale-formatted date; both come from the environment and are
taken as parameters by `saveAndReset` below.  The optional timer fields are
outside the claims and not modelled. -/
structure HistoryEntry where
  id : Nat
  timestamp : List Char
  participantName : List Char
  totalScore : ℚ
  excludedScores : List ℚ
  includedScores : List ℚ
  allScores : List ℚ
deriving DecidableEq

/-- The history-entry record literal of app.js 1079-1087. -/
def mkHistoryEntry (id : Nat) (timestamp participantName : List Char)
    (r : CalcResult) : HistoryEntry :=
  { id := id, timestamp := timestamp, participantName := participantName,
    totalScore := r.totalScore, excludedScores := r.excludedScores,
    includedScores := r.includedScores, allScores := r.scores }

/-- The calculator's mutable fields touched by the claims:
`this.currentResult` and `this.history`. -/
structure AppState where
  currentResult : Option CalcResult
  history : List HistoryEntry
deriving DecidableEq

/-- Notification text of app.js 980. -/
def calcErrorMessage : List Char :=
  "Bitte füllen Sie alle Felder mit gültigen Werten (1,0 - 10,0) aus".data

/-- `calculateScore` as an operation on the calculator state
(app.js 975-1020): when `getScores` yields `null` the error notification is
shown and nothing else happens; otherwise `this.currentResult` is replaced.
Returns the new state and the notification, if any. -/
def calculateStep (st : AppState) (inputs : List (List Char)) :
    AppState × Option (List Char) :=
  match getScores inputs with
  | none => (st, some calcErrorMessage)
  | some scores =>
    ({ st with currentResult := some (calculateScore scores) }, none)

/-- `saveHistory` (app.js 1154-1160): `localStorage.setItem` either succeeds,
making the stored list equal to the in-memory list, or throws; the catch
block surfaces the error via `handleError` and the stored list keeps its old
value.  `persistOk` is the environment's choice of outcome; the second
component reports whether an error was surfaced. -/
def saveHistory (history persisted : List HistoryEntry) (persistOk : Bool) :
    List HistoryEntry × Bool :=
  if persistOk then (history, false) else (persisted, true)

/-- `saveAndReset` (app.js 1072-1110): refuse when there is no current
result; otherwise build the history entry, `unshift` it onto the front of
`this.history`, call `saveHistory`, and reset the current result.  Returns
the new calculator state, the new persisted list and whether a persistence
error was surfaced. -/
def saveAndReset (st : AppState) (persisted : List HistoryEntry) (id : Nat)
    (timestamp participantName : List Char) (persistOk : Bool) :
    AppState × List HistoryEntry × Bool :=
  match st.currentResult with
  | none => (st, persisted, false)
  | some r =>
    let historyEntry := mkHistoryEntry id timestamp participantName r
    let history := historyEntry :: st.history
    let out := saveHistory history persisted persistOk
    ({ currentResult := none, history := history }, out.1, out.2)

/-- Modelled from the claim's words (C2): reduce each separator kind to its
first occurrence, then keep the kind whose occurrence is rightmost in the
*pre-reduction* string as the decimal point and delete every occurrence of
the other kind.  Compared against `normalizeSeparators` below. -/
def normSepSpecPre (value : List Char) : List Char :=
  let reduced := keepFirst '.' (keepFirst ',' value)
  if 0 < countChar ',' reduced ∧ 0 < countChar '.' reduced then
    if lastIndexOf ',' value > lastIndexOf '.' value then
      replaceFirst ',' '.' (removeAll '.' reduced)
    else removeAll ',' reduced
  else if 0 < countChar ',' reduced then replaceFirst ',' '.' reduced
  else reduced

/-- The amended description of the separator tie-break: identical to
`normSepSpecPre` except that the rightmost-kind comparison looks at the
*reduced* string.  Proved below to agree with `normalizeSeparators`
everywhere. -/
def normSepSpecPost (value : List Char) : List Char :=
  let reduced := keepFirst '.' (keepFirst ',' value)
  if 0 < countChar ',' reduced ∧ 0 < countChar '.' reduced then
    if lastIndexOf ',' reduced > lastIndexOf '.' reduced then
      replaceFirst ',' '.' (removeAll '.' reduced)
    else removeAll ',' reduced
  else if 0 < countChar ',' reduced then replaceFirst ',' '.' reduced
  else reduced

/-- A well-formed decimal numeral without sign: digits with at most one
decimal point spanning the whole text, containing at least one digit. -/
def isUnsignedNumeral (s : List Char) : Bool :=
  let intDigits := s.takeWhile Char.isDigit
  match s.dropWhile Char.isDigit with
  | [] => !intDigits.isEmpty
  | '.' :: rest2 => (!intDigits.isEmpty || !rest2.isEmpty) && rest2.all Char.isDigit
  | _ => false

/-- A well-formed decimal numeral: optional sign, then an unsigned numeral.
Used to state that `validateInput` accepts texts that are not numerals. -/
def isNumericLiteral (s : List Char) : Bool :=
  match s with
  | '+' :: rest => isUnsignedNumeral rest
  | '-' :: rest => isUnsignedNumeral rest
  | _ => isUnsignedNumeral s

/-! ## Counting lemmas for the string primitives -/

@[simp]
theorem countChar_nil (c : Char) : countChar c [] = 0 := rfl

@[simp]
theorem countChar_cons (c x : Char) (xs : List Char) :
    countChar c (x :: xs) = (if x = c then 1 else 0) + countChar c xs := rfl

theorem countChar_removeAll_self (c : Char) (s : List Char) :
    countChar c (removeAll c s) = 0 := by
  induction s with
  | nil => rfl
  | cons x xs ih =>
    by_cases h : x = c <;> simp [removeAll, h, ih]

theorem countChar_removeAll_of_ne {c d : Char} (h : d ≠ c) (s : List Char) :
    countChar d (removeAll c s) = countChar d s := by
  induction s with
  | nil => rfl
  | cons x xs ih =>
    by_cases hx : x = c
    · subst hx
      simp [removeAll, ih, Ne.symm h]
    · simp [removeAll, hx, ih]

theorem removeAll_of_countChar_zero {c : Char} {s : List Char}
    (h : countChar c s = 0) : removeAll c s = s := by
  induction s with
  | nil => rfl
  | cons x xs ih =>
    by_cases hx : x = c
    · simp [hx] at h
    · simp [hx] at h
      simp [removeAll, hx, ih h]

theorem keepFirst_of_countChar_le_one {c : Char} {s : List Char}
    (h : countChar c s ≤ 1) : keepFirst c s = s := by
  induction s with
  | nil => rfl
  | cons x xs ih =>
    by_cases hx : x = c
    · simp [hx] at h
      simp [keepFirst, hx, removeAll_of_countChar_zero h]
    · simp [hx] at h
      simp [keepFirst, hx, ih h]

theorem countChar_keepFirst_self (c : Char) (s : List Char) :
    countChar c (keepFirst c s) = min (countChar c s) 1 := by
  induction s with
  | nil => rfl
  | cons x xs ih =>
    by_cases hx : x = c
    · simp [keepFirst, hx, countChar_removeAll_self]
    · simp [keepFirst, hx, ih]

theorem countChar_keepFirst_of_ne {c d : Char} (h : d ≠ c) (s : List Char) :
    countChar d (keepFirst c s) = countChar d s := by
  induction s with
  | nil => rfl
  | cons x xs ih =>
    by_cases hx : x = c
    · subst hx
      simp [keepFirst, countChar_removeAll_of_ne h, Ne.symm h]
    · simp [keepFirst, hx, ih]

theorem replaceFirst_of_countChar_zero {c : Char} (d : Char) {s : List Char}
    (h : countChar c s = 0) : replaceFirst c d s = s := by
  induction s with
  | nil => rfl
  | cons x xs ih =>
    by_cases hx : x = c
    · simp [hx] at h
    · simp [hx] at h
      simp [replaceFirst, hx, ih h]

theorem countChar_replaceFirst_self {c d : Char} (h : d ≠ c) (s : List Char) :
    countChar c (replaceFirst c d s) = countChar c s - 1 := by
  induction s with
  | nil => rfl
  | cons x xs ih =>
    by_cases hx : x = c
    · simp [replaceFirst, hx, h]
    · simp [replaceFirst, hx, ih]

theorem countChar_replaceFirst_target {c d : Char} (h : c ≠ d) {s : List Char}
    (hc : 0 < countChar c s) :
    countChar d (replaceFirst c d s) = countChar d s + 1 := by
  induction s with
  | nil => simp at hc
  | cons x xs ih =>
    by_cases hx : x = c
    · simp [replaceFirst, hx, h, Ne.symm h]
      omega
    · simp [hx] at hc
      simp [replaceFirst, hx, ih hc]
      omega

theorem countChar_replaceFirst_of_ne {c d e : Char} (hc : e ≠ c) (hd : e ≠ d)
    (s : List Char) : countChar e (replaceFirst c d s) = countChar e s := by
  induction s with
  | nil => rfl
  | cons x xs ih =>
    by_cases hx : x = c
    · simp [replaceFirst, hx, Ne.symm hc, Ne.symm hd]
    · simp [replaceFirst, hx, ih]

/-! ## Structure of the separator normalization -/

theorem ite_keepFirst (c : Char) (s : List Char) :
    (if countChar c s > 1 then keepFirst c s else s) = keepFirst c s := by
  split_ifs with h
  · rfl
  · exact (keepFirst_of_countChar_le_one (Nat.not_lt.mp h)).symm

/-- After the duplicate-reduction phase the whole output of
`normalizeSeparators` carries no comma and at most one period. -/
theorem normalizeSeparators_counts (s : List Char) :
    countChar ',' (normalizeSeparators s) = 0 ∧
    countChar '.' (normalizeSeparators s) ≤ 1 := by
  simp only [normalizeSeparators]
  split_ifs with h1 h2 h3 h4 h5 h6 h7 h8 h9 h10 <;>
    simp_all +decide [countChar_removeAll_self, countChar_removeAll_of_ne,
      countChar_keepFirst_self, countChar_keepFirst_of_ne,
      countChar_replaceFirst_self, countChar_replaceFirst_target,
      countChar_replaceFirst_of_ne]

/-- A text with no comma and at most one period is left unchanged. -/
theorem normalizeSeparators_fixpoint {s : List Char}
    (hc : countChar ',' s = 0) (hd : countChar '.' s ≤ 1) :
    normalizeSeparators s = s := by
  simp [normalizeSeparators, hc, Nat.not_lt.mpr hd]

/-- The two conditional duplicate reductions amount to reducing both kinds
unconditionally. -/
theorem reduceBoth_eq (s : List Char) :
    (if countChar '.' s > 1 then
      keepFirst '.' (if countChar ',' s > 1 then keepFirst ',' s else s)
     else if countChar ',' s > 1 then keepFirst ',' s else s)
    = keepFirst '.' (keepFirst ',' s) := by
  rw [ite_keepFirst]
  have h : countChar '.' (keepFirst ',' s) = countChar '.' s :=
    countChar_keepFirst_of_ne (by decide) s
  rw [← h]
  exact ite_keepFirst '.' (keepFirst ',' s)

/-- The separator normalization inlined in `getScores` agrees with the one
inlined in `limitDecimalPlaces` on every input. -/
theorem normalizeScoreText_eq (s : List Char) :
    normalizeScoreText s = normalizeSeparators s := by
  simp only [normalizeScoreText, normalizeSeparators, reduceBoth_eq]
  set r := keepFirst '.' (keepFirst ',' s) with hr
  have hrc : countChar ',' r = min (countChar ',' s) 1 := by
    rw [hr, countChar_keepFirst_of_ne (by decide), countChar_keepFirst_self]
  have hA : (if countChar ',' s > 1 ∨ countChar '.' s > 1 then r else s) = r := by
    split_ifs with h
    · rfl
    · push_neg at h
      rw [hr, keepFirst_of_countChar_le_one h.1,
        keepFirst_of_countChar_le_one h.2]
  by_cases hb : countChar ',' s > 0 ∧ countChar '.' s > 0
  · rw [if_pos hb, if_pos (Or.inr (Or.inr hb)), if_pos hb, hA]
    have hzero : countChar ','
        (if lastIndexOf ',' r > lastIndexOf '.' r then
          replaceFirst ',' '.' (removeAll '.' r)
        else removeAll ',' r) = 0 := by
      split_ifs with h
      · rw [countChar_replaceFirst_self (by decide),
          countChar_removeAll_of_ne (by decide), hrc]
        omega
      · exact countChar_removeAll_self ',' r
    rw [hzero]
    simp
  · rw [if_neg hb]
    by_cases hg : countChar ',' s > 1 ∨ countChar '.' s > 1
    · rw [if_pos (hg.imp_right Or.inl), if_neg hb, hA]
      have hcr : (0 < countChar ',' r) ↔ (countChar ',' s > 0) := by
        rw [hrc]; omega
      by_cases hc : countChar ',' s > 0
      · rw [if_pos hc, if_pos (hcr.mpr hc)]
      · rw [if_neg hc, if_neg (fun h => hc (hcr.mp h))]
    · have hng : ¬(countChar ',' s > 1 ∨ countChar '.' s > 1 ∨
          (countChar ',' s > 0 ∧ countChar '.' s > 0)) := by
        intro h
        rcases h with h | h | h
        exacts [hg (Or.inl h), hg (Or.inr h), hb h]
      rw [if_neg hng, if_neg hg]

/-- `normalizeSeparators` coincides everywhere with the amended description
`normSepSpecPost` (reduce duplicates first, then compare last positions in
the reduced text). -/
theorem normSepSpecPost_eq (s : List Char) :
    normalizeSeparators s = normSepSpecPost s := by
  simp only [normalizeSeparators, normSepSpecPost, reduceBoth_eq]
  set r := keepFirst '.' (keepFirst ',' s) with hr
  have hrc : countChar ',' r = min (countChar ',' s) 1 := by
    rw [hr, countChar_keepFirst_of_ne (by decide), countChar_keepFirst_self]
  have hrd : countChar '.' r = min (countChar '.' s) 1 := by
    rw [hr, countChar_keepFirst_self]
    rw [countChar_keepFirst_of_ne (by decide)]
  have hbc : (0 < countChar ',' r ∧ 0 < countChar '.' r) ↔
      (countChar ',' s > 0 ∧ countChar '.' s > 0) := by
    rw [hrc, hrd]; omega
  by_cases hb : countChar ',' s > 0 ∧ countChar '.' s > 0
  · rw [if_pos (Or.inr (Or.inr hb)), if_pos hb, if_pos (hbc.mpr hb)]
    have hzero : countChar ','
        (if lastIndexOf ',' r > lastIndexOf '.' r then
          replaceFirst ',' '.' (removeAll '.' r)
        else removeAll ',' r) = 0 := by
      split_ifs with h
      · rw [countChar_replaceFirst_self (by decide),
          countChar_removeAll_of_ne (by decide), hrc]
        omega
      · exact countChar_removeAll_self ',' r
    rw [hzero]
    simp
  · rw [if_neg (fun h => hb (hbc.mp h))]
    by_cases hg : countChar ',' s > 1 ∨ countChar '.' s > 1
    · rw [if_pos (hg.imp_right Or.inl), if_neg hb]
    · have hrs : r = s := by
        push_neg at hg
        rw [hr, keepFirst_of_countChar_le_one hg.1,
          keepFirst_of_countChar_le_one hg.2]
      have hng : ¬(countChar ',' s > 1 ∨ countChar '.' s > 1 ∨
          (countChar ',' s > 0 ∧ countChar '.' s > 0)) := by
        intro h
        rcases h with h | h | h
        exacts [hg (Or.inl h), hg (Or.inr h), hb h]
      rw [if_neg hng, hrs]

/-- C6: separator normalization is idempotent — applying
`normalizeSeparators` to its own output leaves that output unchanged, for
every input string. -/
theorem normalizeSeparators_idempotent (x : List Char) :
    normalizeSeparators (normalizeSeparators x) = normalizeSeparators x :=
  normalizeSeparators_fixpoint (normalizeSeparators_counts x).1
    (normalizeSeparators_counts x).2

/-- C2, counterexample: the claim resolves the comma/period tie-break by the
kind standing rightmost in the *pre-reduction* string (`normSepSpecPre`).
On `"8.5,2.3"` the period is rightmost before reduction, so the claim
predicts the commas are deleted, giving `"8.523"`; the code compares
positions only after reducing the duplicated periods and instead keeps the
comma, giving `"85.23"`. -/
theorem normalizeSeparators_pre_tiebreak_counterexample :
    normalizeSeparators "8.5,2.3".data = "85.23".data ∧
    normSepSpecPre "8.5,2.3".data = "8.523".data ∧
    normalizeSeparators "8.5,2.3".data ≠ normSepSpecPre "8.5,2.3".data :=
  ⟨by decide, by decide, by decide⟩

/-- C2 (amended): separator normalization first reduces each duplicated
separator kind to its first occurrence; if both kinds then remain, the kind
whose occurrence is rightmost in the *reduced* string is kept as the decimal
point (converted to a period) and every occurrence of the other kind is
deleted outright — in particular `"8,5.2"` normalizes to `"85.2"`, not
`"8.52"`.  The inline copy of the normalization in `getScores` agrees with
the one in `limitDecimalPlaces` everywhere. -/
theorem normalizeSeparators_tiebreak_spec :
    (∀ x, normalizeSeparators x = normSepSpecPost x) ∧
    (∀ x, normalizeScoreText x = normalizeSeparators x) ∧
    normalizeSeparators "8,5.2".data = "85.2".data ∧
    normalizeSeparators "8,5.2".data ≠ "8.52".data :=
  ⟨normSepSpecPost_eq, normalizeScoreText_eq, by decide, by decide⟩

/-! ## Splitting and the fraction-digit limiter -/

theorem countChar_append (c : Char) (l1 l2 : List Char) :
    countChar c (l1 ++ l2) = countChar c l1 + countChar c l2 := by
  induction l1 with
  | nil => simp
  | cons x xs ih => simp [ih]; omega

theorem splitOnChar_of_countChar_zero {c : Char} {s : List Char}
    (h : countChar c s = 0) : splitOnChar c s = [s] := by
  induction s with
  | nil => rfl
  | cons x xs ih =>
    by_cases hx : x = c
    · simp [hx] at h
    · simp [hx] at h
      simp [splitOnChar, hx, ih h]

theorem splitOnChar_append {c : Char} {p0 : List Char}
    (h : countChar c p0 = 0) (p1 : List Char) :
    splitOnChar c (p0 ++ c :: p1) = p0 :: splitOnChar c p1 := by
  induction p0 with
  | nil => simp [splitOnChar]
  | cons x xs ih =>
    by_cases hx : x = c
    · simp [hx] at h
    · simp [hx] at h
      simp [splitOnChar, hx, ih h]

/-- C5: whenever the separator-normalized text has a fractional part of more
than one digit, `limitDecimalPlaces` truncates it to exactly its first digit
(`take 1` of the fractional part — truncation, not rounding). -/
theorem limitDecimalPlaces_truncates (s p0 p1 : List Char)
    (h0 : normalizeSeparators s = p0 ++ '.' :: p1) (h1 : 1 < p1.length) :
    limitDecimalPlaces s = p0 ++ '.' :: p1.take 1 := by
  have hcounts := (normalizeSeparators_counts s).2
  rw [h0] at hcounts
  simp [countChar_append] at hcounts
  have hp0 : countChar '.' p0 = 0 := by omega
  have hp1 : countChar '.' p1 = 0 := by omega
  rw [limitDecimalPlaces, h0, splitOnChar_append hp0,
    splitOnChar_of_countChar_zero hp1]
  rw [if_pos (by rw [countChar_append]; simp)]
  simp [h1]

/-! ## Validation -/

/-- C3 (amended): `validateInput` fails with `Empty` exactly on the empty
text; fails with `TooManyFractionDigits` exactly when the text is nonempty
and the comma-normalized text has more than one digit between its first and
second period; fails with the separator error ("Nur ein Dezimaltrennzeichen
erlaubt") exactly when, the previous checks having passed, the raw text has
more than one comma, more than one period, or at least one of each; every
accepted value is the `parseFloat` of the comma-normalized text and lies in
`[1, 10]`; an out-of-range failure can only report a value below `1` or
above `10` (or a text that does not parse); and when every failure
condition is absent and the text parses to an in-range value, validation
succeeds with that value. -/
theorem validateInput_spec (value : List Char) :
    (validateInput value = .empty ↔ value = []) ∧
    (validateInput value = .tooManyFractionDigits ↔
      (value ≠ [] ∧ 0 < countChar '.' (normalizedForValidation value) ∧
        fracPartTooLong (normalizedForValidation value) = true)) ∧
    (validateInput value = .multipleSeparators ↔
      (value ≠ [] ∧
        ¬(0 < countChar '.' (normalizedForValidation value) ∧
          fracPartTooLong (normalizedForValidation value) = true) ∧
        (countChar ',' value > 1 ∨ countChar '.' value > 1 ∨
          (countChar ',' value > 0 ∧ countChar '.' value > 0)))) ∧
    (∀ v, validateInput value = .ok v →
      jsParseFloat (normalizedForValidation value) = some v ∧
        1 ≤ v ∧ v ≤ 10) ∧
    (validateInput value = .outOfRange →
      ∀ v, jsParseFloat (normalizedForValidation value) = some v →
        v < 1 ∨ v > 10) ∧
    (value ≠ [] →
      ¬(0 < countChar '.' (normalizedForValidation value) ∧
        fracPartTooLong (normalizedForValidation value) = true) →
      ¬(countChar ',' value > 1 ∨ countChar '.' value > 1 ∨
        (countChar ',' value > 0 ∧ countChar '.' value > 0)) →
      ∀ v, jsParseFloat (normalizedForValidation value) = some v →
        1 ≤ v → v ≤ 10 → validateInput value = .ok v) := by
  simp only [validateInput]
  split_ifs with h1 h2 h3
  · simp [h1]
  · simp [h1, h2]
  · simp [h1, h2, h3]
  · rcases hp : jsParseFloat (normalizedForValidation value) with _ | v
    · simp [h1, h2, h3, hp]
    · simp only [hp]
      split_ifs with h4
      · refine ⟨by simp [h1], by simp [h1, h2], by simp [h1, h2, h3],
          by simp, ?_, ?_⟩
        · intro _ w hw
          cases hw
          exact h4
        · intro _ _ _ w hw hw1 hw10
          cases hw
          rcases h4 with h4 | h4
          · exact absurd hw1 (not_le.mpr h4)
          · exact absurd hw10 (not_le.mpr h4)
      · push_neg at h4
        refine ⟨by simp [h1], by simp [h1, h2], by simp [h1, h2, h3],
          ?_, by simp, ?_⟩
        · intro w hw
          cases hw
          exact ⟨rfl, h4.1, h4.2⟩
        · intro _ _ _ w hw _ _
          cases hw
          rfl

/-- C3, counterexample: on the raw text `"8,5.2"` `validateInput` fails with
the multiple-separator feedback ("Nur ein Dezimaltrennzeichen erlaubt"), a
failure mode that is neither `Empty`, `TooManyFractionDigits` nor
`OutOfRange`, and not a success — the claim allows only those outcomes. -/
theorem validateInput_fourth_error_counterexample :
    validateInput "8,5.2".data = .multipleSeparators ∧
    VResult.multipleSeparators ≠ .empty ∧
    VResult.multipleSeparators ≠ .tooManyFractionDigits ∧
    VResult.multipleSeparators ≠ .outOfRange ∧
    VResult.isOk .multipleSeparators = false :=
  ⟨by decide, by decide, by decide, by decide, rfl⟩

/-- C3, witness: `"9"` is accepted and the accepted value lies in `[1, 10]`. -/
theorem validateInput_spec_witness :
    validateInput "9".data = .ok 9 ∧ (1 : ℚ) ≤ 9 ∧ (9 : ℚ) ≤ 10 :=
  ⟨by decide, ((validateInput_spec "9".data).2.2.2.1 9 (by decide)).2.1,
    ((validateInput_spec "9".data).2.2.2.1 9 (by decide)).2.2⟩

/-- C4: for the raw text `"8,5.2"` the blur-time rewrite deletes the comma
outright (the period being rightmost in the reduced text), the field becomes
`"85.2"`, and validation of the rewritten field fails with the out-of-range
feedback, `85.2 = 426/5` exceeding the upper bound `10`. -/
theorem validateOnBlur_mixed_separator_out_of_range :
    limitDecimalPlaces "8,5.2".data = "85.2".data ∧
    jsParseFloat "85.2".data = some (426 / 5) ∧ (10 : ℚ) < 426 / 5 ∧
    validateOnBlur "8,5.2".data = .outOfRange := by
  refine ⟨by decide, ?_, by norm_num, ?_⟩
  · show jsParseFloat ['8', '5', '.', '2'] = some (426 / 5)
    simp [jsParseFloat, jsParseFloatUnsigned, digitsToNat, digitVal, isWsChar,
      List.takeWhile, List.dropWhile]
    norm_num
  · show validateInput (limitDecimalPlaces ['8', ',', '5', '.', '2']) = .outOfRange
    simp [validateOnBlur, validateInput, limitDecimalPlaces,
      normalizeSeparators, normalizedForValidation, fracPartTooLong,
      splitOnChar, countChar, keepFirst, removeAll, replaceFirst, lastIndexOf,
      jsParseFloat, jsParseFloatUnsigned, digitsToNat, digitVal, isWsChar,
      List.takeWhile, List.dropWhile]
    norm_num

/-- C5, witness: the raw text `"8,55"` normalizes to `"8.55"`, is truncated
(not rounded) to `"8.5"`, and then validates to the value `8.5 = 17/2`. -/
theorem limitDecimalPlaces_truncates_witness :
    normalizeSeparators "8,55".data = "8.55".data ∧
    limitDecimalPlaces "8,55".data = "8.5".data ∧
    validateOnBlur "8,55".data = .ok (17 / 2) := by
  refine ⟨by decide,
    limitDecimalPlaces_truncates "8,55".data ['8'] ['5', '5'] (by decide)
      (by decide), ?_⟩
  show validateInput (limitDecimalPlaces "8,55".data) = .ok (17 / 2)
  rw [limitDecimalPlaces_truncates "8,55".data ['8'] ['5', '5'] (by decide)
    (by decide)]
  show validateInput ['8', '.', '5'] = .ok (17 / 2)
  simp [validateInput, normalizedForValidation, fracPartTooLong, splitOnChar,
    countChar, replaceFirst, jsParseFloat, jsParseFloatUnsigned, digitsToNat,
    digitVal, isWsChar, List.takeWhile, List.dropWhile]
  norm_num

/-- C10: the raw text `"8abc"` is not a well-formed numeric literal, yet
`validateInput` accepts it with value `8`, because the range check parses
with the prefix-parsing `parseFloat` rather than a full-string parse. -/
theorem validateInput_accepts_non_numeral :
    isNumericLiteral "8abc".data = false ∧
    jsParseFloat "8abc".data = some 8 ∧
    validateInput "8abc".data = .ok 8 :=
  ⟨by decide, by decide, by decide⟩

/-! ## Aggregation -/

theorem getD_concat_self {α : Type} (l : List α) (b d : α) :
    (l ++ [b]).getD l.length d = b := by
  induction l with
  | nil => rfl
  | cons x xs ih => simp [ih]

/-- C1: for every panel of `N` scores with `3 ≤ N ≤ 15`, `calculateScore`
sorts the scores ascending, excludes exactly the elements at index `0` and
index `N - 1` of the sorted array (one copy at each end, positionally, even
when values tie), keeps the `N - 2` middle elements, and reports as total
their left-to-right sum in ascending sorted order. -/
theorem calculateScore_spec (scores : List ℚ)
    (h3 : 3 ≤ scores.length) (h15 : scores.length ≤ 15) :
    List.Sorted (· ≤ ·) (sortScores scores) ∧
    (sortScores scores).Perm scores ∧
    ∃ m M mid, sortScores scores = m :: mid ++ [M] ∧
      (calculateScore scores).excludedScores = [m, M] ∧
      (calculateScore scores).includedScores = mid ∧
      mid.length = scores.length - 2 ∧
      (calculateScore scores).totalScore =
        mid.foldl (fun sum score => sum + score) 0 := by
  have hperm : (sortScores scores).Perm scores := List.perm_insertionSort _ _
  have hlen : (sortScores scores).length = scores.length := hperm.length_eq
  refine ⟨List.sorted_insertionSort _ _, hperm, ?_⟩
  obtain ⟨a, t, hat⟩ : ∃ a t, sortScores scores = a :: t := by
    cases hs : sortScores scores with
    | nil => rw [hs] at hlen; simp at hlen; omega
    | cons a t => exact ⟨a, t, rfl⟩
  have ht : t ≠ [] := by
    intro h
    rw [hat, h] at hlen
    simp at hlen
    omega
  have hdecomp : sortScores scores = (a :: t.dropLast) ++ [t.getLast ht] := by
    rw [hat]
    simp [List.dropLast_append_getLast ht]
  refine ⟨a, t.getLast ht, t.dropLast, by simpa using hdecomp, ?_, ?_, ?_, ?_⟩
  · show [(sortScores scores).getD 0 0,
      (sortScores scores).getD ((sortScores scores).length - 1) 0] = _
    rw [hdecomp]
    have hidx : ((a :: t.dropLast) ++ [t.getLast ht]).length - 1 =
        (a :: t.dropLast).length := by simp
    rw [hidx, getD_concat_self]
    rfl
  · show ((sortScores scores).drop 1).dropLast = t.dropLast
    rw [hat]
    rfl
  · rw [List.length_dropLast]
    rw [hat] at hlen
    simp at hlen
    omega
  · show ((sortScores scores).drop 1).dropLast.foldl
        (fun sum score => sum + score) 0 = _
    rw [hat]
    rfl

/-- C1, witness at the all-ties panel `[7, 7, 7]`: two copies of `7` are
excluded positionally, one copy is included, and the total is `7`. -/
theorem calculateScore_spec_witness :
    3 ≤ ([7, 7, 7] : List ℚ).length ∧ ([7, 7, 7] : List ℚ).length ≤ 15 ∧
    (∃ m M mid, sortScores ([7, 7, 7] : List ℚ) = m :: mid ++ [M] ∧
      (calculateScore [7, 7, 7]).excludedScores = [m, M] ∧
      (calculateScore [7, 7, 7]).includedScores = mid ∧
      mid.length = ([7, 7, 7] : List ℚ).length - 2 ∧
      (calculateScore [7, 7, 7]).totalScore =
        mid.foldl (fun sum score => sum + score) 0) ∧
    calculateScore [7, 7, 7] = ⟨[7, 7, 7], [7, 7], [7], 7⟩ :=
  ⟨by simp, by simp,
    (calculateScore_spec [7, 7, 7] (by simp) (by simp)).2.2,
    by simp [calculateScore, sortScores, List.insertionSort, List.orderedInsert]⟩

/-- C7, counterexample: the result's `scores`/`allScores` field echoes the
input in its original order, so two permutations of the same multiset of
scores yield different `CalculationResult`s — the claim's demand that *all*
fields coincide fails. -/
theorem calculateScore_perm_counterexample :
    ([1, 2, 3] : List ℚ).Perm [2, 1, 3] ∧
    (calculateScore ([1, 2, 3] : List ℚ)).scores ≠
      (calculateScore ([2, 1, 3] : List ℚ)).scores ∧
    calculateScore ([1, 2, 3] : List ℚ) ≠ calculateScore ([2, 1, 3] : List ℚ) := by
  refine ⟨by decide, by decide, fun h => ?_⟩
  exact absurd (congrArg CalcResult.scores h) (by decide)

/-- C7 (amended): aggregation is a pure function (calling it twice with the
same array trivially yields the same result), and apart from the
`scores`/`allScores` field — which echoes the input in its original order —
its output is input-order-independent: permuted inputs give identical
`excludedScores`, `includedScores` and `totalScore`. -/
theorem calculateScore_perm_invariant (s1 s2 : List ℚ) (h : s1.Perm s2) :
    (calculateScore s1).excludedScores = (calculateScore s2).excludedScores ∧
    (calculateScore s1).includedScores = (calculateScore s2).includedScores ∧
    (calculateScore s1).totalScore = (calculateScore s2).totalScore ∧
    (calculateScore s1).scores = s1 ∧ (calculateScore s2).scores = s2 := by
  have hsort : sortScores s1 = sortScores s2 :=
    List.eq_of_perm_of_sorted
      ((List.perm_insertionSort _ _).trans
        (h.trans (List.perm_insertionSort _ _).symm))
      (List.sorted_insertionSort _ _) (List.sorted_insertionSort _ _)
  refine ⟨?_, ?_, ?_, rfl, rfl⟩ <;> simp [calculateScore, hsort]

/-- C7, witness: a concrete permuted pair with equal derived fields. -/
theorem calculateScore_perm_invariant_witness :
    ([1, 2, 3] : List ℚ).Perm [3, 1, 2] ∧
    (calculateScore ([1, 2, 3] : List ℚ)).totalScore =
      (calculateScore ([3, 1, 2] : List ℚ)).totalScore ∧
    (calculateScore ([1, 2, 3] : List ℚ)).scores = [1, 2, 3] :=
  ⟨by decide, (calculateScore_perm_invariant [1, 2, 3] [3, 1, 2]
      (by decide)).2.2.1,
    (calculateScore_perm_invariant [1, 2, 3] [3, 1, 2] (by decide)).2.2.2.1⟩

/-! ## Refusal of incomplete or invalid panels -/

theorem getScores_eq_none_of_bad {inputs : List (List Char)}
    (h : ∃ i ∈ inputs, trimWs i = [] ∨ (validateInput i).isOk = false) :
    getScores inputs = none := by
  induction inputs with
  | nil =>
    rcases h with ⟨i, hi, _⟩
    simp at hi
  | cons x rest ih =>
    simp only [getScores]
    by_cases h1 : trimWs x = []
    · simp [h1]
    · by_cases h2 : (validateInput x).isOk = false
      · simp [h1, h2]
      · have hrest : ∃ i ∈ rest, trimWs i = [] ∨ (validateInput i).isOk = false := by
          rcases h with ⟨i, hi, hbad⟩
          rcases List.mem_cons.mp hi with rfl | hmem
          · rcases hbad with hb | hb
            · exact absurd hb h1
            · exact absurd hb h2
          · exact ⟨i, hmem, hbad⟩
        simp [h1, h2, ih hrest]

/-- C8: if any judge field is blank after trimming or fails `validateInput`,
the aggregation is not performed: `getScores` yields `null`, a single error
notification is shown, and both the stored current result and the history
ledger are left exactly as they were. -/
theorem calculateStep_refuses (st : AppState) (inputs : List (List Char))
    (h : ∃ i ∈ inputs, trimWs i = [] ∨ (validateInput i).isOk = false) :
    getScores inputs = none ∧
    calculateStep st inputs = (st, some calcErrorMessage) := by
  have hn := getScores_eq_none_of_bad h
  exact ⟨hn, by simp [calculateStep, hn]⟩

/-- C8, witness: a two-field panel whose second field is empty leaves a
state with a stored result and a one-entry ledger untouched. -/
theorem calculateStep_refuses_witness :
    (∃ i ∈ [['9'], ([] : List Char)],
      trimWs i = [] ∨ (validateInput i).isOk = false) ∧
    calculateStep
      ⟨some (calculateScore [7, 7, 7]),
        [mkHistoryEntry 1 [] [] (calculateScore [7, 7, 7])]⟩
      [['9'], []] =
      (⟨some (calculateScore [7, 7, 7]),
        [mkHistoryEntry 1 [] [] (calculateScore [7, 7, 7])]⟩,
        some calcErrorMessage) :=
  ⟨by decide,
    (calculateStep_refuses
      ⟨some (calculateScore [7, 7, 7]),
        [mkHistoryEntry 1 [] [] (calculateScore [7, 7, 7])]⟩
      [['9'], []] (by decide)).2⟩

/-! ## Commit and persistence -/

/-- C9, counterexample: committing with a failing persistence write leaves
the freshly prepended entry in the in-memory ledger (no rollback) while the
persisted list keeps its old value — the two are left inconsistent, contrary
to the claim that the in-memory commit is rolled back. -/
theorem saveAndReset_no_rollback_counterexample :
    (saveAndReset ⟨some (calculateScore [1, 2, 3]), []⟩ [] 1 [] [] false).1.history
      = [mkHistoryEntry 1 [] [] (calculateScore [1, 2, 3])] ∧
    (saveAndReset ⟨some (calculateScore [1, 2, 3]), []⟩ [] 1 [] [] false).2.1
      = [] ∧
    (saveAndReset ⟨some (calculateScore [1, 2, 3]), []⟩ [] 1 [] [] false).2.2
      = true ∧
    [mkHistoryEntry 1 [] [] (calculateScore [1, 2, 3])] ≠
      ([] : List HistoryEntry) :=
  ⟨rfl, rfl, rfl, List.cons_ne_nil _ _⟩

/-- C9 (amended): committing prepends the new entry at the front of the
in-memory ledger (most-recent-first) and clears the current result.  When
the persistence write succeeds, the persisted list equals the new in-memory
ledger.  When it fails, an error is surfaced, the in-memory ledger *retains*
the new entry (the in-memory state stays authoritative; no rollback), and
the persisted list keeps its old value. -/
theorem saveAndReset_spec (st : AppState) (persisted : List HistoryEntry)
    (id : Nat) (ts name : List Char) (ok : Bool) (r : CalcResult)
    (h : st.currentResult = some r) :
    (saveAndReset st persisted id ts name ok).1.history =
      mkHistoryEntry id ts name r :: st.history ∧
    (saveAndReset st persisted id ts name ok).1.currentResult = none ∧
    (ok = true → (saveAndReset st persisted id ts name ok).2.1 =
      mkHistoryEntry id ts name r :: st.history ∧
      (saveAndReset st persisted id ts name ok).2.2 = false) ∧
    (ok = false → (saveAndReset st persisted id ts name ok).2.1 = persisted ∧
      (saveAndReset st persisted id ts name ok).2.2 = true) := by
  simp only [saveAndReset, h, saveHistory]
  cases ok <;> simp

/-- C9, witness: a successful commit onto an empty ledger. -/
theorem saveAndReset_spec_witness :
    (saveAndReset ⟨some (calculateScore [1, 2, 3]), []⟩ [] 2 [] [] true).1.history
      = [mkHistoryEntry 2 [] [] (calculateScore [1, 2, 3])] ∧
    (saveAndReset ⟨some (calculateScore [1, 2, 3]), []⟩ [] 2 [] [] true).2.1
      = [mkHistoryEntry 2 [] [] (calculateScore [1, 2, 3])] ∧
    (saveAndReset ⟨some (calculateScore [1, 2, 3]), []⟩ [] 2 [] [] true).2.2
      = false :=
  ⟨(saveAndReset_spec ⟨some (calculateScore [1, 2, 3]), []⟩ [] 2 [] [] true
      (calculateScore [1, 2, 3]) rfl).1,
    ((saveAndReset_spec ⟨some (calculateScore [1, 2, 3]), []⟩ [] 2 [] [] true
      (calculateScore [1, 2, 3]) rfl).2.2.1 rfl).1,
    ((saveAndReset_spec ⟨some (calculateScore [1, 2, 3]), []⟩ [] 2 [] [] true
      (calculateScore [1, 2, 3]) rfl).2.2.1 rfl).2⟩

end Slam
